import Mathlib

/-!
Verification development for the `lumen` cross-language benchmark harness.

The definitions below are a shallow embedding of `bench/generate_report.py`
(CSV loading, aggregation, ranking, Markdown rendering) and of the kernel
runner in `bench/python_bench.py`.  Timing values are modelled as exact
rationals; Python `round`/format rounding is modelled as round-half-to-even
on rationals, and `math`/`statistics` square roots via exact integer square
roots of scaled rationals.
-/

namespace LumenBench

/-- Lexicographic comparison of character lists by code point, modelling the
string ordering Python's `sorted` and `min` use for benchmark and language
names. -/
def charsLe : List Char → List Char → Bool
  | [], _ => true
  | _ :: _, [] => false
  | a :: as, b :: bs =>
    if a.toNat < b.toNat then true
    else if b.toNat < a.toNat then false
    else charsLe as bs

/-- Python string `<=` (lexicographic by code point). -/
def strLe (a b : String) : Bool := charsLe a.data b.data

/-- The `Prop`-valued string order used when sorting name lists. -/
def strLeProp (a b : String) : Prop := strLe a b = true

instance : DecidableRel strLeProp := fun _ _ => inferInstanceAs (Decidable (_ = true))

/-- Python `sorted` over a list of strings. -/
def sortStrings (l : List String) : List String := List.insertionSort strLeProp l

/-- Round a rational to the nearest integer with ties to even, the rounding
Python `round` and `format` apply to finite values. -/
def rnearest (q : ℚ) : ℤ :=
  if q - ⌊q⌋ < 1 / 2 then ⌊q⌋
  else if (1 : ℚ) / 2 < q - ⌊q⌋ then ⌊q⌋ + 1
  else if 2 ∣ ⌊q⌋ then ⌊q⌋ else ⌊q⌋ + 1

/-- Python `round(q, 2)`. -/
def round2 (q : ℚ) : ℚ := rnearest (q * 100) / 100

/-- Structurally recursive integer square root: `isqrtFuel fuel n` is `⌊√n⌋`
whenever `n ≤ fuel`. -/
def isqrtFuel : ℕ → ℕ → ℕ
  | 0, _ => 0
  | fuel + 1, n =>
    if n < 2 then n
    else
      let r := 2 * isqrtFuel fuel (n / 4)
      if (r + 1) * (r + 1) ≤ n then r + 1 else r

/-- Integer square root `⌊√n⌋`. -/
def isqrt (n : ℕ) : ℕ := isqrtFuel n n

/-- `⌊√q⌋` for a rational `q` (0 on nonpositive input). -/
def floorSqrtQ (q : ℚ) : ℕ :=
  if q ≤ 0 then 0 else isqrt (q.num.toNat * q.den) / q.den

/-- The nearest natural number to `√w`, ties to even. -/
def sqrtNearest (w : ℚ) : ℕ :=
  let f := floorSqrtQ w
  if 4 * w < ((2 * f + 1 : ℕ) : ℚ) ^ 2 then f
  else if ((2 * f + 1 : ℕ) : ℚ) ^ 2 < 4 * w then f + 1
  else if 2 ∣ f then f else f + 1

/-- Python `round(math-level sqrt v, 2)` for a rational `v ≥ 0`: the nearest
multiple of `1/100` to `√v`, ties to even. -/
def sqrtRound2 (v : ℚ) : ℚ := (sqrtNearest (10000 * v) : ℚ) / 100

/-- Python `min(times)` over a nonempty list; the `[]` default is never
reached by `aggregate`. -/
def listMin : List ℚ → ℚ
  | [] => 0
  | x :: xs => xs.foldl min x

/-- Python `max(times)` over a nonempty list. -/
def listMax : List ℚ → ℚ
  | [] => 0
  | x :: xs => xs.foldl max x

/-- `statistics.median`: sort, take the middle element for an odd count and
the average of the two middle elements for an even count. -/
def median (ts : List ℚ) : ℚ :=
  let s := List.insertionSort (· ≤ ·) ts
  let n := ts.length
  if n % 2 = 1 then s.getD (n / 2) 0
  else (s.getD (n / 2 - 1) 0 + s.getD (n / 2) 0) / 2

/-- `statistics.mean`. -/
def mean (ts : List ℚ) : ℚ := ts.sum / (ts.length : ℚ)

/-- `round(statistics.stdev ts, 2)`: sample standard deviation with Bessel's
correction (divisor `n - 1`), rounded to two decimals. -/
def stdevRound2 (ts : List ℚ) : ℚ :=
  let m := mean ts
  sqrtRound2 ((ts.map (fun x => (x - m) ^ 2)).sum / ((ts.length : ℚ) - 1))

/-- The per-`(benchmark, language)` statistics record built by `aggregate`. -/
structure LanguageStats where
  median : ℚ
  mean : ℚ
  min : ℚ
  max : ℚ
  stdev : ℚ
  runs : ℕ
deriving Repr, DecidableEq, Inhabited

/-- The statistics dictionary `aggregate` builds for one `times` list
(`generate_report.py`, lines 46-53). -/
def mkStats (times : List ℚ) : LanguageStats :=
  { median := median times
    mean := round2 (mean times)
    min := listMin times
    max := listMax times
    stdev := if 1 < times.length then stdevRound2 times else 0
    runs := times.length }

/-- One valid (non-`ERROR`) measurement row, after `load_csv` has parsed
`time_ms` to a number. -/
structure ResultRow where
  benchmark : String
  language : String
  time_ms : ℚ
deriving Repr, DecidableEq

/-- The list `grouped[benchmark][language]` that the grouping loop of
`aggregate` accumulates: the `time_ms` of the matching rows in input order. -/
def groupTimes (rows : List ResultRow) (b lang : String) : List ℚ :=
  (rows.filter (fun r => r.benchmark == b && r.language == lang)).map (fun r => r.time_ms)

/-- The benchmark keys of `sorted(grouped.items())`. -/
def benchNames (rows : List ResultRow) : List String :=
  sortStrings ((rows.map (fun r => r.benchmark)).dedup)

/-- The language keys of `sorted(langs.items())` for one benchmark. -/
def langNames (rows : List ResultRow) (b : String) : List String :=
  sortStrings (((rows.filter (fun r => r.benchmark == b)).map (fun r => r.language)).dedup)

/-- `aggregate` (`generate_report.py`, lines 33-54): group rows by benchmark
then language and compute the statistics of each group.  The result models
the nested insertion-ordered dict as an association list whose keys appear
in sorted order, exactly the order Python's loop inserts them. -/
def aggregate (rows : List ResultRow) : List (String × List (String × LanguageStats)) :=
  (benchNames rows).map fun b =>
    (b, (langNames rows b).map fun lang => (lang, mkStats (groupTimes rows b lang)))

/-- The scan Python `min(keys, key=...)` performs: keep the current best
entry unless a strictly smaller median appears, so the earliest entry wins
ties. -/
def minByMedian (p : String × LanguageStats) (l : List (String × LanguageStats)) :
    String × LanguageStats :=
  l.foldl (fun best q => if q.2.median < best.2.median then q else best) p

/-- `find_fastest` (`generate_report.py`, lines 57-59): Python `min` over the
dict's keys with the stats median as sort key, which keeps the earliest key
in iteration order on ties. -/
def find_fastest (bench_data : List (String × LanguageStats)) : String :=
  match bench_data with
  | [] => ""
  | p :: rest => (minByMedian p rest).1

/-- `langs.get("c", {}).get("median")` (`generate_report.py`, line 110). -/
def c_median (langs : List (String × LanguageStats)) : Option ℚ :=
  (langs.lookup "c").map (fun s => s.median)

/-- The three-way branch of the relative-performance loop
(`generate_report.py`, lines 112-119): a true ratio cell when the language
is present and the C baseline median is truthy and positive, the absolute
median (rendered with an `ms` unit) when only the language is present, and
a dash when the language is absent from the benchmark. -/
inductive RelCell where
  | rel (v : ℚ)
  | absolute (m : ℚ)
  | missing
deriving Repr, DecidableEq

/-- Decision logic of one cell of the relative-performance table. -/
def relCell (langs : List (String × LanguageStats)) (lang : String) : RelCell :=
  match langs.lookup lang, c_median langs with
  | some s, some cm => if cm ≠ 0 ∧ 0 < cm then .rel (s.median / cm) else .absolute s.median
  | some s, none => .absolute s.median
  | none, _ => .missing

/-- Stable sort of a benchmark group by median (`sorted(langs.items(),
key=lambda x: x[1]["median"])`, `generate_report.py`, line 153). -/
def sortByMedian (langs : List (String × LanguageStats)) : List (String × LanguageStats) :=
  List.insertionSort (fun p q => p.2.median ≤ q.2.median) langs

/-- One iteration of the Lumen-analysis loop (`generate_report.py`, lines
150-161): `none` when `"lumen"` is not in the group, otherwise the
`(benchmark, rank, total, ratio-to-fastest, fastest)` tuple it appends. -/
def lumenRankEntry (bench : String) (langs : List (String × LanguageStats)) :
    Option (String × ℕ × ℕ × ℚ × String) :=
  if ("lumen" ∈ langs.map (fun p => p.1)) then
    match langs.lookup "lumen" with
    | none => none
    | some lumenStats =>
      match sortByMedian langs with
      | [] => none
      | fastest :: rest =>
        let rank := ((fastest :: rest).findIdx (fun p => p.1 == "lumen")) + 1
        let total := (fastest :: rest).length
        some (bench, rank, total,
          if 0 < fastest.2.median then lumenStats.median / fastest.2.median else 0,
          fastest.1)
  else none

/-- `lumen_ranks` (`generate_report.py`, lines 149-161) over the aggregated
model. -/
def lumen_ranks (data : List (String × List (String × LanguageStats))) :
    List (String × ℕ × ℕ × ℚ × String) :=
  data.filterMap (fun p => lumenRankEntry p.1 p.2)

/-- `statistics.mean(r[3] for r in lumen_ranks)`, computed only when the
rank list is nonempty (`generate_report.py`, lines 163-171); `none` models
the omitted section. -/
def average_slowdown (ranks : List (String × ℕ × ℕ × ℚ × String)) : Option ℚ :=
  match ranks with
  | [] => none
  | _ => some (mean (ranks.map (fun r => r.2.2.2.1)))

/-- Numeric value of a digit character. -/
def digitVal (c : Char) : ℕ := c.toNat - '0'.toNat

/-- Parse a nonempty all-digit character list as a natural number. -/
def parseNatChars (cs : List Char) : Option ℕ :=
  if !cs.isEmpty && cs.all Char.isDigit then
    some (cs.foldl (fun acc c => 10 * acc + digitVal c) 0)
  else none

/-- Parse an unsigned decimal literal `ddd` or `ddd.ddd`. -/
def parseUnsignedChars (cs : List Char) : Option ℚ :=
  let ip := cs.takeWhile (fun c => c != '.')
  let rest := cs.dropWhile (fun c => c != '.')
  match rest with
  | [] => (parseNatChars ip).map (fun n => (n : ℚ))
  | _ :: frac =>
    match parseNatChars ip, parseNatChars frac with
    | some n, some f => some ((n : ℚ) + (f : ℚ) / ((10 ^ frac.length : ℕ) : ℚ))
    | _, _ => none

/-- Python `float(s)` on the plain decimal literals the run harness writes
(an optional minus sign, digits, optional fractional digits); `none` models
the `ValueError` raised on any other string. -/
def parsePyFloat (s : String) : Option ℚ :=
  match s.data with
  | '-' :: rest => (parseUnsignedChars rest).map (fun q => -q)
  | cs => parseUnsignedChars cs

/-- A raw CSV row as `csv.DictReader` yields it: three string fields. -/
structure RawRow where
  benchmark : String
  language : String
  time_ms : String
deriving Repr, DecidableEq

/-- `load_csv` (`generate_report.py`, lines 21-30): skip rows whose
`time_ms` is the literal `ERROR` marker and convert every other `time_ms`
with `float(...)`.  A value `float` rejects raises an uncaught `ValueError`
at that row, modelled as `Except.error`, which aborts the whole load. -/
def load_csv : List RawRow → Except String (List ResultRow)
  | [] => .ok []
  | r :: rest =>
    if r.time_ms = "ERROR" then load_csv rest
    else
      match parsePyFloat r.time_ms with
      | none => .error ("could not convert string to float: " ++ r.time_ms)
      | some t =>
        match load_csv rest with
        | .ok rs => .ok ({ benchmark := r.benchmark, language := r.language, time_ms := t } :: rs)
        | .error e => .error e

/-- The drop-and-continue reading of the loader, for comparison with
`load_csv`: `ERROR` rows removed, every other row parsed, unparseable rows
dropped.  `load_csv` agrees with it exactly when every non-`ERROR` `time_ms`
parses; on a store with an unparseable row it aborts instead. -/
def loadSpec (raws : List RawRow) : List ResultRow :=
  raws.filterMap (fun r =>
    if r.time_ms = "ERROR" then none
    else (parsePyFloat r.time_ms).map (fun t => ⟨r.benchmark, r.language, t⟩))

/-- Decimal digit characters of `n`, most significant first (`natDigitsFuel
fuel n` is correct whenever `n ≤ fuel`). -/
def natDigitsFuel : ℕ → ℕ → List Char
  | 0, _ => []
  | fuel + 1, n =>
    if n < 10 then [Nat.digitChar n]
    else natDigitsFuel fuel (n / 10) ++ [Nat.digitChar (n % 10)]

/-- Decimal digit characters of a natural number, most significant first. -/
def natDigits (n : ℕ) : List Char := natDigitsFuel (n + 1) n

/-- The `prec` zero-padded fractional digits of `a < 10 ^ prec`, most
significant first. -/
def fracDigits (prec a : ℕ) : List Char :=
  (List.range prec).map (fun i => Nat.digitChar (a / 10 ^ (prec - 1 - i) % 10))

/-- Python fixed-point formatting `format(q, ".<prec>f")` on rationals:
round half to even at `prec` decimals and print exactly `prec` fractional
digits (none, and no point, when `prec = 0`). -/
def fmtFixed (prec : ℕ) (q : ℚ) : String :=
  (if rnearest (q * ((10 ^ prec : ℕ) : ℚ)) < 0 then "-" else "") ++
    String.mk (natDigits ((rnearest (q * ((10 ^ prec : ℕ) : ℚ))).natAbs / 10 ^ prec)) ++
    (if prec = 0 then ""
     else String.mk
       ('.' :: fracDigits prec ((rnearest (q * ((10 ^ prec : ℕ) : ℚ))).natAbs % 10 ^ prec)))

/-- One cell of the summary table (`generate_report.py`, lines 86-93): the
median with the fastest language bolded, or `-` when the language has no
stats in this benchmark. -/
def summaryCell (langs : List (String × LanguageStats)) (fastest lang : String) : String :=
  match langs.lookup lang with
  | some s =>
    (if lang = fastest then " **" else " ") ++ fmtFixed 0 s.median ++
      (if lang = fastest then "** " else " ") ++ "|"
  | none => " - |"

/-- One row of the summary table (`generate_report.py`, lines 83-95). -/
def summaryRow (all_langs : List String) (bench : String)
    (langs : List (String × LanguageStats)) : String :=
  let fastest := find_fastest langs
  (all_langs.foldl (fun row lang => row ++ summaryCell langs fastest lang)
    ("| " ++ bench ++ " |")) ++ " " ++ fastest ++ " |"

/-- One cell of the relative-performance table rendered to text
(`generate_report.py`, lines 112-119). -/
def relCellStr (langs : List (String × LanguageStats)) (lang : String) : String :=
  match relCell langs lang with
  | .rel v => " " ++ fmtFixed 1 v ++ "x |"
  | .absolute m => " " ++ fmtFixed 0 m ++ "ms |"
  | .missing => " - |"

/-- One row of the relative-performance table (`generate_report.py`, lines
109-120). -/
def relRow (all_langs : List String) (bench : String)
    (langs : List (String × LanguageStats)) : String :=
  all_langs.foldl (fun row lang => row ++ relCellStr langs lang) ("| " ++ bench ++ " |")

/-- One row of a detailed per-benchmark table (`generate_report.py`, lines
139-142). -/
def detailRow (lang : String) (s : LanguageStats) : String :=
  "| " ++ lang ++ " | " ++ fmtFixed 1 s.median ++ " | " ++ fmtFixed 1 s.mean ++
    " | " ++ fmtFixed 1 s.min ++ " | " ++ fmtFixed 1 s.max ++ " | " ++
    fmtFixed 1 s.stdev ++ " | " ++ toString s.runs ++ " |"

/-- `sorted({lang for bench in data.values() for lang in bench})`
(`generate_report.py`, line 71). -/
def allLangs (data : List (String × List (String × LanguageStats))) : List String :=
  sortStrings ((data.map (fun b => b.2.map (fun p => p.1))).flatten.dedup)

/-- One rank row of the Lumen analysis table (`generate_report.py`, line
167). -/
def lumenRankLine (r : String × ℕ × ℕ × ℚ × String) : String :=
  "| " ++ r.1 ++ " | " ++ toString r.2.1 ++ "/" ++ toString r.2.2.1 ++ " | " ++
    fmtFixed 1 r.2.2.2.1 ++ "x | " ++ r.2.2.2.2 ++ " |"

/-- The lines the Lumen-analysis section appends (`generate_report.py`,
lines 163-172): nothing at all when `lumen_ranks` is empty. -/
def lumenSectionLines (ranks : List (String × ℕ × ℕ × ℚ × String)) : List String :=
  match average_slowdown ranks with
  | none => []
  | some avg =>
    ["| Benchmark | Lumen Rank | vs Fastest | Fastest Language |",
     "|-----------|:----------:|:----------:|:----------------:|"] ++
      ranks.map lumenRankLine ++ [""] ++
      ["Average slowdown vs fastest: **" ++ fmtFixed 1 avg ++ "x**", ""]

/-- `generate_markdown` (`generate_report.py`, lines 62-177).  The model is
only applied to `aggregate` output, which is already sorted by benchmark and
by language, so the source's `sorted(data.items())` and `sorted(langs)`
iterations are the identity on it and the model iterates in place. -/
def generate_markdown (data : List (String × List (String × LanguageStats)))
    (csv_path : String) : String :=
  let all_langs := allLangs data
  let header := "| Benchmark |" ++
    String.intercalate "|" (all_langs.map (fun l => " " ++ l ++ " ")) ++ "| Fastest |"
  let sep := "|-----------|" ++
    String.intercalate "|" (all_langs.map (fun _ => "------:")) ++ "|---------|"
  let header2 := "| Benchmark |" ++
    String.intercalate "|" (all_langs.map (fun l => " " ++ l ++ " ")) ++ "|"
  let sep2 := "|-----------|" ++
    String.intercalate "|" (all_langs.map (fun _ => "------:")) ++ "|"
  let lines :=
    ["# Lumen Cross-Language Benchmark Report", "",
     "Source: `" ++ csv_path ++ "`", "",
     "## Summary (median time in ms)", "", header, sep] ++
    data.map (fun p => summaryRow all_langs p.1 p.2) ++ [""] ++
    ["## Relative Performance (vs C baseline)", "",
     "Values show how many times slower than C (1.0x = same speed).", "",
     header2, sep2] ++
    data.map (fun p => relRow all_langs p.1 p.2) ++ [""] ++
    ["## Detailed Results", ""] ++
    (data.map (fun p =>
      ["### " ++ p.1, "",
       "| Language | Median (ms) | Mean (ms) | Min (ms) | Max (ms) | Stdev | Runs |",
       "|----------|----------:|--------:|-------:|-------:|------:|-----:|"] ++
        p.2.map (fun q => detailRow q.1 q.2) ++ [""])).flatten ++
    ["## Lumen Performance Analysis", ""] ++
    lumenSectionLines (lumen_ranks data) ++
    ["---", "*Generated by `bench/generate_report.py`*", ""]
  String.intercalate "\n" lines

/-- Failure modes of a report-generation invocation; either one makes the
process exit nonzero with the message on stderr and write no report. -/
inductive ReportError where
  | malformedRow (msg : String)
  | emptyInput (msg : String)
deriving Repr, DecidableEq

/-- The `main` pipeline of `generate_report.py` (lines 180-205) in Markdown
mode: load the store, abort with exit code 1 and a stderr diagnostic when no
valid rows remain, otherwise aggregate and render.  An uncaught `ValueError`
from a malformed row is `malformedRow`; `emptyInput` is the explicit
zero-valid-rows abort. -/
def mainPipeline (raw : List RawRow) (csv_path : String) : Except ReportError String :=
  match load_csv raw with
  | .error e => .error (.malformedRow e)
  | .ok rows =>
    if rows.isEmpty then .error (.emptyInput "No valid results found in CSV.")
    else .ok (generate_markdown (aggregate rows) csv_path)

/-- The naive recursive `fib` of `bench_int_fib` (`python_bench.py`, lines
21-24): `fib n = n` below 2, else `fib (n-1) + fib (n-2)`. -/
def fib : ℕ → ℕ
  | 0 => 0
  | 1 => 1
  | n + 2 => fib (n + 1) + fib n

/-- Linear-time fibonacci pair, used only to evaluate `fib` at 35. -/
def fibPair : ℕ → ℕ × ℕ
  | 0 => (0, 1)
  | n + 1 =>
    match fibPair n with
    | (a, b) => (b, a + b)

/-- `bench_int_fib` (`python_bench.py`, lines 20-30) with the wall-clock
reading abstracted as the oracle `elapsed`: run the workload, then the
self-check assertion; a mismatch raises (`Except.error`) before the elapsed
time is returned. -/
def bench_int_fib (elapsed : ℚ) : Except String ℚ :=
  let result := fib 35
  if result = 9227465 then .ok elapsed else .error ("fib(35) = " ++ toString result)

/-- The self-check contract every kernel follows: compare the computed value
against the expected one; on mismatch terminate abnormally with no timing,
otherwise return the elapsed time. -/
def kernelSelfCheck (computed expected : ℕ) (elapsed : ℚ) (msg : String) : Except String ℚ :=
  if computed = expected then .ok elapsed else .error msg

/-- One iteration of the runner loop (`python_bench.py`, lines 293-300): the
timing line on success, the `FAILED` line when the kernel raised. -/
def runKernelLine (name : String) (r : Except String ℚ) : String :=
  match r with
  | .ok e => "BENCH " ++ name ++ ": " ++ fmtFixed 4 e ++ "s"
  | .error msg => "BENCH " ++ name ++ ": FAILED (" ++ msg ++ ")"

/-- The one `BENCH` line each kernel contributes to the runner's output. -/
def runnerLines (ks : List (String × Except String ℚ)) : List String :=
  ks.map (fun p => runKernelLine p.1 p.2)

/-- Strip an exact prefix from a character list, or fail. -/
def stripChars : List Char → List Char → Option (List Char)
  | [], rest => some rest
  | _ :: _, [] => none
  | p :: ps, c :: cs => if p = c then stripChars ps cs else none

/-- Does `cs` read `<digits>.<4 digits>s`, with at least one integer digit
and nothing trailing? -/
def timingTail (cs : List Char) : Bool :=
  let ip := cs.takeWhile (fun c => c.isDigit)
  let rest := cs.dropWhile (fun c => c.isDigit)
  !ip.isEmpty &&
    (match rest with
     | '.' :: d1 :: d2 :: d3 :: d4 :: 's' :: [] =>
       d1.isDigit && d2.isDigit && d3.isDigit && d4.isDigit
     | _ => false)

/-- The kernel stdout contract of the spec: a line matching
`BENCH <name>: <seconds-with-4-decimal-places>s`. -/
def isTimingLine (name line : String) : Bool :=
  match stripChars ("BENCH " ++ name ++ ": ").data line.data with
  | some tail => timingTail tail
  | none => false

/-- The worked three-row example of the spec: two `fib` samples for language
`a` and one for language `b`. -/
def exampleRows : List ResultRow :=
  [⟨"fib", "a", 10⟩, ⟨"fib", "a", 20⟩, ⟨"fib", "b", 5⟩]

/-! ### The string order is a total, transitive, antisymmetric relation -/

theorem charsLe_refl (l : List Char) : charsLe l l = true := by
  induction l with
  | nil => rfl
  | cons a as ih => simp [charsLe, ih]

theorem charsLe_total : ∀ l1 l2 : List Char, charsLe l1 l2 = true ∨ charsLe l2 l1 = true
  | [], _ => Or.inl rfl
  | _ :: _, [] => Or.inr rfl
  | a :: as, b :: bs => by
    by_cases hab : a.toNat < b.toNat
    · left
      simp [charsLe, hab]
    · by_cases hba : b.toNat < a.toNat
      · right
        simp [charsLe, hba]
      · rcases charsLe_total as bs with h | h
        · left
          simp [charsLe, hab, hba, h]
        · right
          simp [charsLe, hba, hab, h]

theorem charsLe_trans : ∀ l1 l2 l3 : List Char,
    charsLe l1 l2 = true → charsLe l2 l3 = true → charsLe l1 l3 = true
  | [], _, _, _, _ => rfl
  | _ :: _, [], _, h1, _ => by simp [charsLe] at h1
  | _ :: _, _ :: _, [], _, h2 => by simp [charsLe] at h2
  | a :: as, b :: bs, c :: cs, h1, h2 => by
    simp only [charsLe] at h1 h2 ⊢
    by_cases hab : a.toNat < b.toNat <;> by_cases hbc : b.toNat < c.toNat <;>
      by_cases hba : b.toNat < a.toNat <;> by_cases hcb : c.toNat < b.toNat <;>
        by_cases hac : a.toNat < c.toNat <;> by_cases hca : c.toNat < a.toNat <;>
          simp_all <;>
            first
            | omega
            | exact Or.inl (by omega)
            | exact Or.inr (charsLe_trans as bs cs h1 h2)

theorem char_eq_of_toNat_eq {a b : Char} (h : a.toNat = b.toNat) : a = b := by
  apply Char.ext
  apply UInt32.ext
  simpa [Char.toNat, UInt32.toNat] using h

theorem charsLe_antisymm : ∀ l1 l2 : List Char,
    charsLe l1 l2 = true → charsLe l2 l1 = true → l1 = l2
  | [], [], _, _ => rfl
  | [], _ :: _, _, h2 => by simp [charsLe] at h2
  | _ :: _, [], h1, _ => by simp [charsLe] at h1
  | a :: as, b :: bs, h1, h2 => by
    by_cases hab : a.toNat < b.toNat
    · simp [charsLe, hab, Nat.lt_asymm hab] at h2
    · by_cases hba : b.toNat < a.toNat
      · simp [charsLe, hab, hba] at h1
      · have hchar : a = b := char_eq_of_toNat_eq (by omega)
        simp only [charsLe, hab, hba, if_false] at h1 h2
        have := charsLe_antisymm as bs (by simpa using h1) (by simpa using h2)
        rw [hchar, this]

theorem strLe_isTotal : IsTotal String strLeProp :=
  ⟨fun a b => charsLe_total a.data b.data⟩

theorem strLe_isTrans : IsTrans String strLeProp :=
  ⟨fun _ _ _ h1 h2 => charsLe_trans _ _ _ h1 h2⟩

theorem strLe_isRefl : IsRefl String strLeProp :=
  ⟨fun a => charsLe_refl a.data⟩

theorem string_data_inj {a b : String} (h : a.data = b.data) : a = b :=
  String.ext h

theorem strLe_isAntisymm : IsAntisymm String strLeProp :=
  ⟨fun _ _ h1 h2 => string_data_inj (charsLe_antisymm _ _ h1 h2)⟩

theorem sortStrings_sorted (l : List String) : List.Sorted strLeProp (sortStrings l) := by
  haveI := strLe_isTotal
  haveI := strLe_isTrans
  exact List.sorted_insertionSort strLeProp l

theorem sortStrings_perm (l : List String) : List.Perm (sortStrings l) l :=
  List.perm_insertionSort strLeProp l

theorem sortStrings_eq_of_perm {l1 l2 : List String} (h : List.Perm l1 l2) :
    sortStrings l1 = sortStrings l2 := by
  haveI := strLe_isAntisymm
  exact List.eq_of_perm_of_sorted
    ((sortStrings_perm l1).trans (h.trans (sortStrings_perm l2).symm))
    (sortStrings_sorted l1) (sortStrings_sorted l2)

/-! ### The integer square root is correct -/

theorem isqrtFuel_spec : ∀ fuel n : ℕ, n ≤ fuel →
    isqrtFuel fuel n * isqrtFuel fuel n ≤ n ∧ n < (isqrtFuel fuel n + 1) * (isqrtFuel fuel n + 1)
  | 0, n, h => by
    interval_cases n
    simp [isqrtFuel]
  | fuel + 1, n, h => by
    by_cases h2 : n < 2
    · interval_cases n <;> simp [isqrtFuel]
    · have hrec : n / 4 ≤ fuel := by omega
      obtain ⟨hlo, hhi⟩ := isqrtFuel_spec fuel (n / 4) hrec
      have hd1 : 4 * (n / 4) ≤ n := by omega
      have hd2 : n < 4 * (n / 4) + 4 := by omega
      simp only [isqrtFuel, if_neg h2]
      set r := isqrtFuel fuel (n / 4) with hr
      by_cases hstep : (2 * r + 1) * (2 * r + 1) ≤ n
      · simp only [if_pos hstep]
        constructor
        · exact hstep
        · nlinarith
      · simp only [if_neg hstep]
        constructor
        · nlinarith
        · omega

theorem isqrt_le (n : ℕ) : isqrt n * isqrt n ≤ n :=
  (isqrtFuel_spec n n le_rfl).1

theorem lt_isqrt_succ (n : ℕ) : n < (isqrt n + 1) * (isqrt n + 1) :=
  (isqrtFuel_spec n n le_rfl).2

/-! ### `listMin`, `listMax` and `median` bound each sample list -/

theorem foldl_min_le : ∀ (l : List ℚ) (a x : ℚ), x ∈ a :: l → l.foldl min a ≤ x := by
  intro l
  induction l with
  | nil =>
    intro a x hx
    simp at hx
    simp [hx]
  | cons b t ih =>
    intro a x hx
    have step : List.foldl min a (b :: t) = List.foldl min (min a b) t := rfl
    rw [step]
    rcases List.mem_cons.mp hx with h | h
    · calc List.foldl min (min a b) t ≤ min a b := ih (min a b) (min a b) (by simp)
        _ ≤ a := min_le_left _ _
        _ = x := h.symm ▸ rfl
    · rcases List.mem_cons.mp h with h' | h'
      · calc List.foldl min (min a b) t ≤ min a b := ih (min a b) (min a b) (by simp)
          _ ≤ b := min_le_right _ _
          _ = x := h'.symm ▸ rfl
      · exact ih (min a b) x (List.mem_cons_of_mem _ h')

theorem foldl_min_mem : ∀ (l : List ℚ) (a : ℚ), l.foldl min a ∈ a :: l := by
  intro l
  induction l with
  | nil => intro a; simp
  | cons b t ih =>
    intro a
    have step : List.foldl min a (b :: t) = List.foldl min (min a b) t := rfl
    rw [step]
    rcases List.mem_cons.mp (ih (min a b)) with h | h
    · rcases min_choice a b with hc | hc
      · exact List.mem_cons.mpr (Or.inl (h.trans hc))
      · exact List.mem_cons_of_mem _ (List.mem_cons.mpr (Or.inl (h.trans hc)))
    · exact List.mem_cons_of_mem _ (List.mem_cons_of_mem _ h)

theorem le_foldl_max : ∀ (l : List ℚ) (a x : ℚ), x ∈ a :: l → x ≤ l.foldl max a := by
  intro l
  induction l with
  | nil =>
    intro a x hx
    simp at hx
    simp [hx]
  | cons b t ih =>
    intro a x hx
    have step : List.foldl max a (b :: t) = List.foldl max (max a b) t := rfl
    rw [step]
    rcases List.mem_cons.mp hx with h | h
    · calc x = a := h
        _ ≤ max a b := le_max_left _ _
        _ ≤ List.foldl max (max a b) t := ih (max a b) (max a b) (by simp)
    · rcases List.mem_cons.mp h with h' | h'
      · calc x = b := h'
          _ ≤ max a b := le_max_right _ _
          _ ≤ List.foldl max (max a b) t := ih (max a b) (max a b) (by simp)
      · exact ih (max a b) x (List.mem_cons_of_mem _ h')

theorem foldl_max_mem : ∀ (l : List ℚ) (a : ℚ), l.foldl max a ∈ a :: l := by
  intro l
  induction l with
  | nil => intro a; simp
  | cons b t ih =>
    intro a
    have step : List.foldl max a (b :: t) = List.foldl max (max a b) t := rfl
    rw [step]
    rcases List.mem_cons.mp (ih (max a b)) with h | h
    · rcases max_choice a b with hc | hc
      · exact List.mem_cons.mpr (Or.inl (h.trans hc))
      · exact List.mem_cons_of_mem _ (List.mem_cons.mpr (Or.inl (h.trans hc)))
    · exact List.mem_cons_of_mem _ (List.mem_cons_of_mem _ h)

theorem listMin_le {ts : List ℚ} {x : ℚ} (hx : x ∈ ts) : listMin ts ≤ x := by
  cases ts with
  | nil => cases hx
  | cons a l => exact foldl_min_le l a x hx

theorem listMin_mem {ts : List ℚ} (h : ts ≠ []) : listMin ts ∈ ts := by
  cases ts with
  | nil => exact absurd rfl h
  | cons a l => exact foldl_min_mem l a

theorem le_listMax {ts : List ℚ} {x : ℚ} (hx : x ∈ ts) : x ≤ listMax ts := by
  cases ts with
  | nil => cases hx
  | cons a l => exact le_foldl_max l a x hx

theorem listMax_mem {ts : List ℚ} (h : ts ≠ []) : listMax ts ∈ ts := by
  cases ts with
  | nil => exact absurd rfl h
  | cons a l => exact foldl_max_mem l a

theorem median_mem_avg (ts : List ℚ) (h : ts ≠ []) :
    ∃ x ∈ ts, ∃ y ∈ ts, median ts = (x + y) / 2 := by
  have hperm : List.Perm (List.insertionSort (· ≤ ·) ts) ts := List.perm_insertionSort _ ts
  have hlen : (List.insertionSort (· ≤ ·) ts).length = ts.length := hperm.length_eq
  have hpos : 0 < ts.length := List.length_pos.mpr h
  unfold median
  by_cases hodd : ts.length % 2 = 1
  · rw [if_pos hodd]
    have hidx : ts.length / 2 < (List.insertionSort (· ≤ ·) ts).length := by
      rw [hlen]; omega
    set s := List.insertionSort (· ≤ ·) ts with hs
    have hget : s.getD (ts.length / 2) 0 = s[ts.length / 2] := by
      simp [List.getD_eq_getElem?_getD, List.getElem?_eq_getElem hidx]
    refine ⟨s[ts.length / 2], ?_, s[ts.length / 2], ?_, ?_⟩
    · exact hperm.mem_iff.mp (List.getElem_mem hidx)
    · exact hperm.mem_iff.mp (List.getElem_mem hidx)
    · rw [hget]; ring
  · rw [if_neg hodd]
    have h2 : 2 ≤ ts.length := by omega
    have hidx2 : ts.length / 2 < (List.insertionSort (· ≤ ·) ts).length := by
      rw [hlen]; omega
    have hidx1 : ts.length / 2 - 1 < (List.insertionSort (· ≤ ·) ts).length := by
      rw [hlen]; omega
    set s := List.insertionSort (· ≤ ·) ts with hs
    have hget1 : s.getD (ts.length / 2 - 1) 0 = s[ts.length / 2 - 1] := by
      simp [List.getD_eq_getElem?_getD, List.getElem?_eq_getElem hidx1]
    have hget2 : s.getD (ts.length / 2) 0 = s[ts.length / 2] := by
      simp [List.getD_eq_getElem?_getD, List.getElem?_eq_getElem hidx2]
    refine ⟨s[ts.length / 2 - 1], ?_, s[ts.length / 2], ?_, ?_⟩
    · exact hperm.mem_iff.mp (List.getElem_mem hidx1)
    · exact hperm.mem_iff.mp (List.getElem_mem hidx2)
    · rw [hget1, hget2]

theorem listMin_le_median {ts : List ℚ} (h : ts ≠ []) : listMin ts ≤ median ts := by
  obtain ⟨x, hx, y, hy, hxy⟩ := median_mem_avg ts h
  have h1 := listMin_le hx
  have h2 := listMin_le hy
  rw [hxy]
  linarith

theorem median_le_listMax {ts : List ℚ} (h : ts ≠ []) : median ts ≤ listMax ts := by
  obtain ⟨x, hx, y, hy, hxy⟩ := median_mem_avg ts h
  have h1 := le_listMax hx
  have h2 := le_listMax hy
  rw [hxy]
  linarith

/-! ### Membership in `aggregate` output comes from actual rows -/

theorem mem_benchNames {rows : List ResultRow} {b : String} (h : b ∈ benchNames rows) :
    ∃ r ∈ rows, r.benchmark = b := by
  unfold benchNames at h
  have hd := (sortStrings_perm _).mem_iff.mp h
  rw [List.mem_dedup] at hd
  obtain ⟨r, hr, hb⟩ := List.mem_map.mp hd
  exact ⟨r, hr, hb⟩

theorem mem_langNames {rows : List ResultRow} {b lang : String}
    (h : lang ∈ langNames rows b) : ∃ r ∈ rows, r.benchmark = b ∧ r.language = lang := by
  unfold langNames at h
  have hd := (sortStrings_perm _).mem_iff.mp h
  rw [List.mem_dedup] at hd
  obtain ⟨r, hr, hl⟩ := List.mem_map.mp hd
  have hrf := List.mem_filter.mp hr
  refine ⟨r, hrf.1, ?_, hl⟩
  simpa using hrf.2

theorem groupTimes_ne_nil {rows : List ResultRow} {b lang : String} (r : ResultRow)
    (hr : r ∈ rows) (hb : r.benchmark = b) (hl : r.language = lang) :
    groupTimes rows b lang ≠ [] := by
  intro hnil
  have hmem : r ∈ rows.filter (fun r => r.benchmark == b && r.language == lang) :=
    List.mem_filter.mpr ⟨hr, by simp [hb, hl]⟩
  have hx : r.time_ms ∈ groupTimes rows b lang :=
    List.mem_map_of_mem _ hmem
  rw [hnil] at hx
  cases hx

theorem mem_aggregate {rows : List ResultRow} {b : String}
    {grp : List (String × LanguageStats)} (h : (b, grp) ∈ aggregate rows) :
    b ∈ benchNames rows ∧
      grp = (langNames rows b).map
        (fun lang => (lang, mkStats (groupTimes rows b lang))) := by
  unfold aggregate at h
  obtain ⟨b', hb', heq⟩ := List.mem_map.mp h
  rw [Prod.mk.injEq] at heq
  obtain ⟨hb1, hg⟩ := heq
  subst hb1
  exact ⟨hb', hg.symm⟩

theorem mem_group {rows : List ResultRow} {b lang : String} {st : LanguageStats}
    (h : (lang, st) ∈ (langNames rows b).map
      (fun lang => (lang, mkStats (groupTimes rows b lang)))) :
    lang ∈ langNames rows b ∧ st = mkStats (groupTimes rows b lang) := by
  obtain ⟨l', hl', heq⟩ := List.mem_map.mp h
  rw [Prod.mk.injEq] at heq
  obtain ⟨hl1, hs⟩ := heq
  subst hl1
  exact ⟨hl', hs.symm⟩

/-- C2: for every multiset of valid rows, each LanguageStats that `aggregate`
produces satisfies `min ≤ median ≤ max`, its `runs` equals the exact number
of contributing rows for that (benchmark, language) key, and that count is
positive — a key with zero valid samples never appears in the output. -/
theorem c2_aggregate_invariants (rows : List ResultRow) (b lang : String)
    (grp : List (String × LanguageStats)) (st : LanguageStats)
    (hb : (b, grp) ∈ aggregate rows) (hl : (lang, st) ∈ grp) :
    st.min ≤ st.median ∧ st.median ≤ st.max ∧
      st.runs = (groupTimes rows b lang).length ∧ 0 < st.runs := by
  obtain ⟨hbn, hgrp⟩ := mem_aggregate hb
  subst hgrp
  obtain ⟨hln, hst⟩ := mem_group hl
  subst hst
  obtain ⟨r, hr, hrb, hrl⟩ := mem_langNames hln
  have hne : groupTimes rows b lang ≠ [] := groupTimes_ne_nil r hr hrb hrl
  refine ⟨listMin_le_median hne, median_le_listMax hne, rfl, ?_⟩
  show 0 < (groupTimes rows b lang).length
  exact List.length_pos.mpr hne

/-- Closed witness for `c2_aggregate_invariants` on a one-row store. -/
theorem c2_aggregate_invariants_witness :
    (mkStats (groupTimes [⟨"fib", "a", 10⟩] "fib" "a")).min ≤
        (mkStats (groupTimes [⟨"fib", "a", 10⟩] "fib" "a")).median ∧
      (mkStats (groupTimes [⟨"fib", "a", 10⟩] "fib" "a")).median ≤
        (mkStats (groupTimes [⟨"fib", "a", 10⟩] "fib" "a")).max ∧
      (mkStats (groupTimes [⟨"fib", "a", 10⟩] "fib" "a")).runs =
        (groupTimes [⟨"fib", "a", 10⟩] "fib" "a").length ∧
      0 < (mkStats (groupTimes [⟨"fib", "a", 10⟩] "fib" "a")).runs :=
  c2_aggregate_invariants [⟨"fib", "a", 10⟩] "fib" "a"
    ((langNames [⟨"fib", "a", 10⟩] "fib").map
      (fun lang => (lang, mkStats (groupTimes [⟨"fib", "a", 10⟩] "fib" lang))))
    (mkStats (groupTimes [⟨"fib", "a", 10⟩] "fib" "a"))
    (by simp [aggregate, benchNames, sortStrings, List.insertionSort, List.orderedInsert])
    (by simp [langNames, sortStrings, List.insertionSort, List.orderedInsert])

/-! ### Aggregation is invariant under permutation of the input rows -/

theorem benchNames_perm {r1 r2 : List ResultRow} (h : List.Perm r1 r2) :
    benchNames r1 = benchNames r2 :=
  sortStrings_eq_of_perm ((h.map _).dedup)

theorem langNames_perm {r1 r2 : List ResultRow} (h : List.Perm r1 r2) (b : String) :
    langNames r1 b = langNames r2 b :=
  sortStrings_eq_of_perm (((h.filter _).map _).dedup)

theorem groupTimes_perm {r1 r2 : List ResultRow} (h : List.Perm r1 r2) (b lang : String) :
    List.Perm (groupTimes r1 b lang) (groupTimes r2 b lang) :=
  (h.filter _).map _

theorem sortQ_eq_of_perm {l1 l2 : List ℚ} (h : List.Perm l1 l2) :
    List.insertionSort (· ≤ ·) l1 = List.insertionSort (· ≤ ·) l2 :=
  List.eq_of_perm_of_sorted
    ((List.perm_insertionSort _ l1).trans (h.trans (List.perm_insertionSort _ l2).symm))
    (List.sorted_insertionSort _ l1) (List.sorted_insertionSort _ l2)

theorem listMin_perm {l1 l2 : List ℚ} (h : List.Perm l1 l2) : listMin l1 = listMin l2 := by
  by_cases h1 : l1 = []
  · subst h1
    rw [h.nil_eq]
  · have h2 : l2 ≠ [] := by
      intro hc
      subst hc
      exact h1 h.symm.nil_eq.symm
    apply le_antisymm
    · exact listMin_le (h.mem_iff.mpr (listMin_mem h2))
    · exact listMin_le (h.mem_iff.mp (listMin_mem h1))

theorem listMax_perm {l1 l2 : List ℚ} (h : List.Perm l1 l2) : listMax l1 = listMax l2 := by
  by_cases h1 : l1 = []
  · subst h1
    rw [h.nil_eq]
  · have h2 : l2 ≠ [] := by
      intro hc
      subst hc
      exact h1 h.symm.nil_eq.symm
    apply le_antisymm
    · exact le_listMax (h.mem_iff.mp (listMax_mem h1))
    · exact le_listMax (h.mem_iff.mpr (listMax_mem h2))

theorem mean_perm {l1 l2 : List ℚ} (h : List.Perm l1 l2) : mean l1 = mean l2 := by
  unfold mean
  rw [h.sum_eq, h.length_eq]

theorem median_perm {l1 l2 : List ℚ} (h : List.Perm l1 l2) : median l1 = median l2 := by
  unfold median
  rw [sortQ_eq_of_perm h, h.length_eq]

theorem stdevRound2_def (l : List ℚ) : stdevRound2 l =
    sqrtRound2 ((l.map (fun x => (x - mean l) ^ 2)).sum / ((l.length : ℚ) - 1)) := rfl

theorem stdevRound2_perm {l1 l2 : List ℚ} (h : List.Perm l1 l2) :
    stdevRound2 l1 = stdevRound2 l2 := by
  rw [stdevRound2_def, stdevRound2_def, mean_perm h,
    (h.map (fun x => (x - mean l2) ^ 2)).sum_eq, h.length_eq]

theorem mkStats_perm {l1 l2 : List ℚ} (h : List.Perm l1 l2) : mkStats l1 = mkStats l2 := by
  unfold mkStats
  rw [median_perm h, mean_perm h, listMin_perm h, listMax_perm h, h.length_eq,
    stdevRound2_perm h]

theorem aggregate_perm {r1 r2 : List ResultRow} (h : List.Perm r1 r2) :
    aggregate r1 = aggregate r2 := by
  unfold aggregate
  rw [benchNames_perm h]
  apply List.map_congr_left
  intro b _
  rw [langNames_perm h b]
  apply congrArg (Prod.mk b)
  apply List.map_congr_left
  intro lang _
  rw [mkStats_perm (groupTimes_perm h b lang)]

/-! ### `find_fastest` picks the minimum median, earliest key on ties -/

theorem minByMedian_mem : ∀ (l : List (String × LanguageStats)) (p : String × LanguageStats),
    minByMedian p l ∈ p :: l
  | [], p => by simp [minByMedian]
  | q :: t, p => by
    have step : minByMedian p (q :: t) =
        minByMedian (if q.2.median < p.2.median then q else p) t := rfl
    rw [step]
    rcases List.mem_cons.mp (minByMedian_mem t (if q.2.median < p.2.median then q else p))
      with h | h
    · rw [h]
      split
      · exact List.mem_cons_of_mem _ (List.mem_cons_self _ _)
      · exact List.mem_cons_self _ _
    · exact List.mem_cons_of_mem _ (List.mem_cons_of_mem _ h)

theorem minByMedian_le : ∀ (l : List (String × LanguageStats)) (p x : String × LanguageStats),
    x ∈ p :: l → (minByMedian p l).2.median ≤ x.2.median
  | [], p, x, hx => by
    simp at hx
    simp [minByMedian, hx]
  | q :: t, p, x, hx => by
    have step : minByMedian p (q :: t) =
        minByMedian (if q.2.median < p.2.median then q else p) t := rfl
    rw [step]
    have hacc : (if q.2.median < p.2.median then q else p).2.median ≤ p.2.median ∧
        (if q.2.median < p.2.median then q else p).2.median ≤ q.2.median := by
      split_ifs with hq
      · exact ⟨le_of_lt hq, le_refl _⟩
      · exact ⟨le_refl _, le_of_not_lt hq⟩
    rcases List.mem_cons.mp hx with h | h
    · subst h
      calc (minByMedian (if q.2.median < x.2.median then q else x) t).2.median
          ≤ (if q.2.median < x.2.median then q else x).2.median :=
            minByMedian_le t _ _ (List.mem_cons_self _ _)
        _ ≤ x.2.median := hacc.1
    · rcases List.mem_cons.mp h with h' | h'
      · subst h'
        calc (minByMedian (if x.2.median < p.2.median then x else p) t).2.median
            ≤ (if x.2.median < p.2.median then x else p).2.median :=
              minByMedian_le t _ _ (List.mem_cons_self _ _)
          _ ≤ x.2.median := hacc.2
      · exact minByMedian_le t _ x (List.mem_cons_of_mem _ h')

theorem minByMedian_tie_first :
    ∀ (l : List (String × LanguageStats)) (p : String × LanguageStats),
      List.Pairwise (fun x y => strLeProp x.1 y.1) (p :: l) →
      ∀ x ∈ p :: l, x.2.median = (minByMedian p l).2.median →
        strLeProp (minByMedian p l).1 x.1
  | [], p, _, x, hx, _ => by
    simp at hx
    subst hx
    exact charsLe_refl _
  | q :: t, p, hsort, x, hx, hmed => by
    have step : minByMedian p (q :: t) =
        minByMedian (if q.2.median < p.2.median then q else p) t := rfl
    rw [step] at hmed ⊢
    have hpq : strLeProp p.1 q.1 := (List.pairwise_cons.mp hsort).1 q (List.mem_cons_self _ _)
    have hsort_qt : List.Pairwise (fun x y => strLeProp x.1 y.1) (q :: t) :=
      (List.pairwise_cons.mp hsort).2
    have hsort_pt : List.Pairwise (fun x y => strLeProp x.1 y.1) (p :: t) := by
      rw [List.pairwise_cons]
      refine ⟨fun y hy => (List.pairwise_cons.mp hsort).1 y (List.mem_cons_of_mem _ hy), ?_⟩
      exact (List.pairwise_cons.mp hsort_qt).2
    by_cases hc : q.2.median < p.2.median
    · rw [if_pos hc] at hmed ⊢
      rcases List.mem_cons.mp hx with h | h
      · subst h
        have hle : (minByMedian q t).2.median ≤ q.2.median :=
          minByMedian_le t q q (List.mem_cons_self _ _)
        exact absurd hmed (by rw [hmed] at hc ⊢; linarith [hle])
      · exact minByMedian_tie_first t q hsort_qt x h hmed
    · rw [if_neg hc] at hmed ⊢
      push_neg at hc
      rcases List.mem_cons.mp hx with h | h
      · subst h
        exact minByMedian_tie_first t x hsort_pt x (List.mem_cons_self _ _) hmed
      · rcases List.mem_cons.mp h with h' | h'
        · subst h'
          have hminp : (minByMedian p t).2.median ≤ p.2.median :=
            minByMedian_le t p p (List.mem_cons_self _ _)
          have hpmed : p.2.median = (minByMedian p t).2.median := by
            rw [← hmed] at hminp ⊢
            linarith
          have hfirst : strLeProp (minByMedian p t).1 p.1 :=
            minByMedian_tie_first t p hsort_pt p (List.mem_cons_self _ _) hpmed
          exact charsLe_trans _ _ _ hfirst hpq
        · exact minByMedian_tie_first t p hsort_pt x (List.mem_cons_of_mem _ h') hmed

theorem group_keys_pairwise (rows : List ResultRow) (b : String) :
    List.Pairwise (fun x y => strLeProp x.1 y.1)
      ((langNames rows b).map (fun lang => (lang, mkStats (groupTimes rows b lang)))) := by
  rw [List.pairwise_map]
  exact sortStrings_sorted _

/-- C4: on every benchmark group `aggregate` produces, `find_fastest` returns
a language of the group whose median is minimal, and on exact median ties the
returned language precedes every tied language in the string order; moreover
`aggregate` itself is invariant under permutation of the input rows, so the
returned language does not depend on row order. -/
theorem c4_find_fastest (rows rows' : List ResultRow) (b : String)
    (grp : List (String × LanguageStats)) (hperm : List.Perm rows rows')
    (hmem : (b, grp) ∈ aggregate rows) :
    aggregate rows' = aggregate rows ∧
      ∃ s, (find_fastest grp, s) ∈ grp ∧
        (∀ p ∈ grp, s.median ≤ p.2.median) ∧
        (∀ p ∈ grp, p.2.median = s.median → strLeProp (find_fastest grp) p.1) := by
  refine ⟨(aggregate_perm hperm).symm, ?_⟩
  obtain ⟨hbn, hgrp⟩ := mem_aggregate hmem
  have hpair : List.Pairwise (fun x y => strLeProp x.1 y.1) grp := by
    rw [hgrp]
    exact group_keys_pairwise rows b
  obtain ⟨r, hr, hrb⟩ := mem_benchNames hbn
  have hlang : r.language ∈ langNames rows b := by
    unfold langNames
    apply (sortStrings_perm _).mem_iff.mpr
    rw [List.mem_dedup]
    exact List.mem_map_of_mem _ (List.mem_filter.mpr ⟨hr, by simp [hrb]⟩)
  have hne : grp ≠ [] := by
    rw [hgrp]
    intro hc
    rw [List.map_eq_nil_iff] at hc
    rw [hc] at hlang
    cases hlang
  obtain ⟨f, rest, hfr⟩ := List.exists_cons_of_ne_nil hne
  subst hfr
  have hff : find_fastest (f :: rest) = (minByMedian f rest).1 := rfl
  refine ⟨(minByMedian f rest).2, ?_, ?_, ?_⟩
  · rw [hff]
    have : ((minByMedian f rest).1, (minByMedian f rest).2) = minByMedian f rest := rfl
    rw [this]
    exact minByMedian_mem rest f
  · intro p hp
    exact minByMedian_le rest f p hp
  · intro p hp hmed
    rw [hff]
    exact minByMedian_tie_first rest f hpair p hp hmed

/-- Closed witness for `c4_find_fastest` on a one-row store. -/
theorem c4_find_fastest_witness :
    aggregate [⟨"fib", "a", 10⟩] = aggregate [⟨"fib", "a", 10⟩] ∧
      ∃ s, (find_fastest ((langNames [⟨"fib", "a", 10⟩] "fib").map
          (fun lang => (lang, mkStats (groupTimes [⟨"fib", "a", 10⟩] "fib" lang)))), s) ∈
            ((langNames [⟨"fib", "a", 10⟩] "fib").map
              (fun lang => (lang, mkStats (groupTimes [⟨"fib", "a", 10⟩] "fib" lang)))) ∧
        (∀ p ∈ (langNames [⟨"fib", "a", 10⟩] "fib").map
            (fun lang => (lang, mkStats (groupTimes [⟨"fib", "a", 10⟩] "fib" lang))),
          s.median ≤ p.2.median) ∧
        (∀ p ∈ (langNames [⟨"fib", "a", 10⟩] "fib").map
            (fun lang => (lang, mkStats (groupTimes [⟨"fib", "a", 10⟩] "fib" lang))),
          p.2.median = s.median →
            strLeProp (find_fastest ((langNames [⟨"fib", "a", 10⟩] "fib").map
              (fun lang => (lang, mkStats (groupTimes [⟨"fib", "a", 10⟩] "fib" lang))))) p.1) :=
  c4_find_fastest [⟨"fib", "a", 10⟩] [⟨"fib", "a", 10⟩] "fib"
    ((langNames [⟨"fib", "a", 10⟩] "fib").map
      (fun lang => (lang, mkStats (groupTimes [⟨"fib", "a", 10⟩] "fib" lang))))
    (List.Perm.refl _)
    (by simp [aggregate, benchNames, sortStrings, List.insertionSort, List.orderedInsert])

/-! ### Concrete evaluation of the statistics on the spec's worked example -/

theorem rnearest_intCast (n : ℤ) : rnearest ((n : ℚ)) = n := by
  unfold rnearest
  rw [Int.floor_intCast]
  norm_num

theorem round2_intCast (n : ℤ) : round2 ((n : ℚ)) = (n : ℚ) := by
  unfold round2
  rw [show ((n : ℚ) * 100) = (((n * 100 : ℤ) : ℚ)) by push_cast; ring, rnearest_intCast]
  push_cast
  ring

theorem floorSqrtQ_500000 : floorSqrtQ (500000 : ℚ) = 707 := by
  unfold floorSqrtQ
  rw [if_neg (by norm_num)]
  have h1 : (500000 : ℚ).num.toNat * (500000 : ℚ).den = 500000 := by
    norm_num [Rat.num_ofNat, Rat.den_ofNat]
    rfl
  have h2 : (500000 : ℚ).den = 1 := by norm_num [Rat.den_ofNat]
  rw [h1, h2]
  decide

theorem sqrtNearest_500000 : sqrtNearest (500000 : ℚ) = 707 := by
  unfold sqrtNearest
  rw [floorSqrtQ_500000]
  norm_num

theorem mkStats_pair : mkStats [10, 20] = ⟨15, 15, 10, 20, 707 / 100, 2⟩ := by
  have hmed : median [(10 : ℚ), 20] = 15 := by
    unfold median
    norm_num [List.insertionSort, List.orderedInsert]
  have hmean : mean [(10 : ℚ), 20] = 15 := by
    unfold mean
    norm_num
  have hr2 : round2 (15 : ℚ) = 15 := by
    rw [show (15 : ℚ) = ((15 : ℤ) : ℚ) by norm_num]
    exact round2_intCast 15
  have hstdev : stdevRound2 [(10 : ℚ), 20] = 707 / 100 := by
    rw [stdevRound2_def, hmean]
    rw [show (([(10 : ℚ), 20].map (fun x => (x - 15) ^ 2)).sum /
        (([(10 : ℚ), 20].length : ℚ) - 1)) = 50 by norm_num]
    unfold sqrtRound2
    rw [show (10000 : ℚ) * 50 = 500000 by norm_num, sqrtNearest_500000]
    norm_num
  unfold mkStats
  rw [hmed, hmean, hr2, hstdev]
  norm_num [listMin, listMax]

theorem mkStats_single : mkStats [5] = ⟨5, 5, 5, 5, 0, 1⟩ := by
  have hmed : median [(5 : ℚ)] = 5 := by
    unfold median
    norm_num [List.insertionSort, List.orderedInsert]
  have hmean : mean [(5 : ℚ)] = 5 := by
    unfold mean
    norm_num
  have hr2 : round2 (5 : ℚ) = 5 := by
    rw [show (5 : ℚ) = ((5 : ℤ) : ℚ) by norm_num]
    exact round2_intCast 5
  unfold mkStats
  rw [hmed, hmean, hr2]
  norm_num [listMin, listMax]

theorem aggregate_exampleRows :
    aggregate exampleRows =
      [("fib", [("a", ⟨15, 15, 10, 20, 707 / 100, 2⟩), ("b", ⟨5, 5, 5, 5, 0, 1⟩)])] := by
  have hb : benchNames exampleRows = ["fib"] := by decide
  have hl : langNames exampleRows "fib" = ["a", "b"] := by decide
  have hg1 : groupTimes exampleRows "fib" "a" = [10, 20] := by decide
  have hg2 : groupTimes exampleRows "fib" "b" = [5] := by decide
  unfold aggregate
  rw [hb]
  simp only [List.map_cons, List.map_nil]
  rw [hl]
  simp only [List.map_cons, List.map_nil]
  rw [hg1, hg2, mkStats_pair, mkStats_single]

/-- C1: on the spec's worked example `aggregate` yields exactly
`fib.a = (median 15, mean 15, min 10, max 20, stdev 7.07, runs 2)` and
`fib.b = (median 5, mean 5, min 5, max 5, stdev 0, runs 1)`; in general the
stats record of a sample list has `stdev = 0` whenever there are fewer than
two samples, sample standard deviation with divisor `n - 1` (rounded to two
decimals) otherwise, `runs` equal to the sample count, and `mean` rounded to
two decimals. -/
theorem c1_aggregate_stats :
    aggregate exampleRows =
        [("fib", [("a", ⟨15, 15, 10, 20, 707 / 100, 2⟩), ("b", ⟨5, 5, 5, 5, 0, 1⟩)])] ∧
      (∀ ts : List ℚ, ts.length < 2 → (mkStats ts).stdev = 0) ∧
      (∀ ts : List ℚ, (mkStats ts).runs = ts.length) ∧
      (∀ ts : List ℚ, 2 ≤ ts.length → (mkStats ts).stdev = stdevRound2 ts) ∧
      (∀ ts : List ℚ, (mkStats ts).mean = round2 (mean ts)) := by
  refine ⟨aggregate_exampleRows, ?_, ?_, ?_, ?_⟩
  · intro ts hts
    unfold mkStats
    simp only
    rw [if_neg (by omega)]
  · intro ts
    rfl
  · intro ts hts
    unfold mkStats
    simp only
    rw [if_pos (by omega)]
  · intro ts
    rfl

/-- Closed witness for `c1_aggregate_stats`. -/
theorem c1_aggregate_stats_witness :
    (mkStats [(5 : ℚ)]).stdev = 0 ∧ (mkStats [(5 : ℚ), 7]).runs = [(5 : ℚ), 7].length :=
  ⟨c1_aggregate_stats.2.1 [5] (by norm_num), c1_aggregate_stats.2.2.1 [5, 7]⟩

/-! ### The relative-performance cells guard the baseline division -/

/-- C5: a true ratio cell `median[lang] / median[c]` is produced exactly when
the language is present and the C baseline median exists and is strictly
positive; otherwise a present language renders its absolute median flagged
with the `ms` unit and an absent one a dash, so no division by a
non-positive or missing baseline ever happens; and whenever the baseline
median is positive the baseline's own cell is exactly `1`. -/
theorem c5_ratio_cells :
    (∀ langs lang s cm, langs.lookup lang = some s → c_median langs = some cm → 0 < cm →
        relCell langs lang = .rel (s.median / cm)) ∧
      (∀ langs lang s, langs.lookup lang = some s → c_median langs = none →
        relCell langs lang = .absolute s.median) ∧
      (∀ langs lang s cm, langs.lookup lang = some s → c_median langs = some cm → cm ≤ 0 →
        relCell langs lang = .absolute s.median) ∧
      (∀ langs lang, langs.lookup lang = none → relCell langs lang = .missing) ∧
      (∀ langs s, langs.lookup "c" = some s → 0 < s.median → relCell langs "c" = .rel 1) ∧
      (∀ langs lang v, relCell langs lang = .rel v →
        ∃ s cm, langs.lookup lang = some s ∧ c_median langs = some cm ∧ 0 < cm ∧
          v = s.median / cm) := by
  refine ⟨?_, ?_, ?_, ?_, ?_, ?_⟩
  · intro langs lang s cm h1 h2 h3
    unfold relCell
    rw [h1, h2]
    exact if_pos ⟨ne_of_gt h3, h3⟩
  · intro langs lang s h1 h2
    unfold relCell
    rw [h1, h2]
  · intro langs lang s cm h1 h2 h3
    unfold relCell
    rw [h1, h2]
    exact if_neg (by rintro ⟨hne, hpos⟩; exact absurd hpos (not_lt.mpr h3))
  · intro langs lang h1
    unfold relCell
    rw [h1]
  · intro langs s h1 h2
    have hcm : c_median langs = some s.median := by
      unfold c_median
      rw [h1]
      rfl
    unfold relCell
    rw [h1, hcm]
    show (if s.median ≠ 0 ∧ 0 < s.median then RelCell.rel (s.median / s.median)
        else RelCell.absolute s.median) = RelCell.rel 1
    rw [if_pos ⟨ne_of_gt h2, h2⟩, div_self (ne_of_gt h2)]
  · intro langs lang v h
    unfold relCell at h
    cases h1 : langs.lookup lang with
    | none => rw [h1] at h; cases h
    | some s =>
      rw [h1] at h
      cases h2 : c_median langs with
      | none => rw [h2] at h; cases h
      | some cm =>
        rw [h2] at h
        have h' : (if cm ≠ 0 ∧ 0 < cm then RelCell.rel (s.median / cm)
            else RelCell.absolute s.median) = RelCell.rel v := h
        by_cases h3 : cm ≠ 0 ∧ 0 < cm
        · rw [if_pos h3] at h'
          injection h' with hv
          exact ⟨s, cm, rfl, rfl, h3.2, hv.symm⟩
        · rw [if_neg h3] at h'
          cases h'

/-- Closed witness for `c5_ratio_cells`: the baseline's own cell is `1`. -/
theorem c5_ratio_cells_witness :
    relCell [("c", ⟨2, 2, 2, 2, 0, 1⟩)] "c" = .rel 1 :=
  c5_ratio_cells.2.2.2.2.1 [("c", ⟨2, 2, 2, 2, 0, 1⟩)] ⟨2, 2, 2, 2, 0, 1⟩
    (by simp [List.lookup]) (by norm_num)

/-! ### The Lumen section is omitted, not an error, without subject data -/

/-- C8 counterexample: on a store whose only language is `c` the subject
appears in no benchmark group; `lumen_ranks` is empty, `average_slowdown`
yields `none`, the Lumen section renders as no lines at all, and the whole
invocation still succeeds — no `InsufficientDataError` or any other failure
occurs. -/
theorem c8_counterexample :
    lumen_ranks (aggregate [⟨"fib", "c", 10⟩]) = [] ∧
      average_slowdown (lumen_ranks (aggregate [⟨"fib", "c", 10⟩])) = none ∧
      lumenSectionLines (lumen_ranks (aggregate [⟨"fib", "c", 10⟩])) = [] ∧
      (mainPipeline [⟨"fib", "c", "10"⟩] "results.csv").isOk = true := by
  have hb : benchNames [(⟨"fib", "c", 10⟩ : ResultRow)] = ["fib"] := by decide
  have hl : langNames [(⟨"fib", "c", 10⟩ : ResultRow)] "fib" = ["c"] := by decide
  have hranks : lumen_ranks (aggregate [⟨"fib", "c", 10⟩]) = [] := by
    unfold aggregate
    rw [hb]
    simp only [List.map_cons, List.map_nil]
    rw [hl]
    simp only [List.map_cons, List.map_nil]
    unfold lumen_ranks
    simp only [List.filterMap_cons, List.filterMap_nil]
    unfold lumenRankEntry
    rw [if_neg (by decide)]
  refine ⟨hranks, by rw [hranks]; rfl, by rw [hranks]; rfl, ?_⟩
  have hload : load_csv [⟨"fib", "c", "10"⟩] =
      .ok [⟨"fib", "c", ((10 : ℕ) : ℚ)⟩] := by
    show (if ("10" : String) = "ERROR" then _ else _) = _
    rw [if_neg (by decide)]
    have hp : parsePyFloat "10" = some ((10 : ℕ) : ℚ) := by decide
    rw [hp]
    rfl
  unfold mainPipeline
  rw [hload]
  rfl

/-- C8 amended: `average_slowdown` is the arithmetic mean of the
ratio-to-fastest values (so 2.0 and 4.0 give exactly 3.0); when the subject
appears in no benchmark the rank list is empty and the section is omitted
entirely — report generation continues with no error. -/
theorem c8_average_slowdown :
    (∀ ranks : List (String × ℕ × ℕ × ℚ × String), ranks ≠ [] →
        average_slowdown ranks = some (mean (ranks.map (fun r => r.2.2.2.1)))) ∧
      average_slowdown [("x", 1, 2, 2, "c"), ("y", 1, 2, 4, "c")] = some 3 ∧
      average_slowdown [] = none ∧ lumenSectionLines [] = [] := by
  refine ⟨?_, ?_, rfl, rfl⟩
  · intro ranks h
    cases ranks with
    | nil => exact absurd rfl h
    | cons r rest => rfl
  · show some (mean [(2 : ℚ), 4]) = some 3
    unfold mean
    norm_num

/-- Closed witness for `c8_average_slowdown`. -/
theorem c8_average_slowdown_witness :
    average_slowdown [("x", 1, 2, (2 : ℚ), "c")] =
      some (mean ([("x", 1, 2, (2 : ℚ), "c")].map (fun r => r.2.2.2.1))) :=
  c8_average_slowdown.1 [("x", 1, 2, 2, "c")] (by simp)

/-! ### A malformed row aborts the load; ERROR rows are dropped -/

/-- C6 counterexample: a single row whose `time_ms` is neither a decimal
number nor the `ERROR` marker makes `load_csv` abort with a `ValueError`
instead of dropping the row and returning the (empty) remainder. -/
theorem c6_counterexample :
    load_csv [⟨"fib", "a", "abc"⟩] =
      .error "could not convert string to float: abc" := by
  show (if ("abc" : String) = "ERROR" then _ else _) = _
  rw [if_neg (by decide)]
  have hp : parsePyFloat "abc" = none := by decide
  rw [hp]
  rfl

/-- C6 amended: the loader drops exactly the rows whose `time_ms` is the
literal `ERROR` marker and parses the rest, provided every other row's
`time_ms` is parseable; but one unparseable row anywhere makes the whole
load abort with an error instead of being dropped. -/
theorem c6_load_csv :
    (∀ raws : List RawRow,
        (∀ r ∈ raws, r.time_ms ≠ "ERROR" → (parsePyFloat r.time_ms).isSome) →
        load_csv raws = .ok (loadSpec raws)) ∧
      (∀ raws : List RawRow, ∀ r ∈ raws, r.time_ms ≠ "ERROR" →
        parsePyFloat r.time_ms = none → ∃ msg, load_csv raws = .error msg) := by
  constructor
  · intro raws
    induction raws with
    | nil => intro _; rfl
    | cons r rest ih =>
      intro h
      have hrest := ih (fun x hx => h x (List.mem_cons_of_mem _ hx))
      show (if r.time_ms = "ERROR" then load_csv rest else _) = _
      by_cases hr : r.time_ms = "ERROR"
      · rw [if_pos hr, hrest]
        have : loadSpec (r :: rest) = loadSpec rest := by
          unfold loadSpec
          rw [List.filterMap_cons]
          rw [if_pos hr]
        rw [this]
      · rw [if_neg hr]
        obtain ⟨t, ht⟩ := Option.isSome_iff_exists.mp (h r (List.mem_cons_self _ _) hr)
        rw [ht, hrest]
        have : loadSpec (r :: rest) = ⟨r.benchmark, r.language, t⟩ :: loadSpec rest := by
          unfold loadSpec
          rw [List.filterMap_cons, if_neg hr, ht]
          rfl
        rw [this]
  · intro raws
    induction raws with
    | nil => intro r hr; cases hr
    | cons q rest ih =>
      intro r hr hne hparse
      show ∃ msg, (if q.time_ms = "ERROR" then load_csv rest else _) = .error msg
      rcases List.mem_cons.mp hr with heq | hmem
      · subst heq
        rw [if_neg hne, hparse]
        exact ⟨_, rfl⟩
      · by_cases hq : q.time_ms = "ERROR"
        · rw [if_pos hq]
          exact ih r hmem hne hparse
        · rw [if_neg hq]
          cases hp : parsePyFloat q.time_ms with
          | none => exact ⟨_, rfl⟩
          | some t =>
            obtain ⟨msg, hmsg⟩ := ih r hmem hne hparse
            rw [hmsg]
            exact ⟨msg, rfl⟩

/-- Closed witness for `c6_load_csv`: an ERROR row is dropped and the rest
of the store is returned. -/
theorem c6_load_csv_witness :
    load_csv [⟨"fib", "a", "ERROR"⟩, ⟨"fib", "b", "5"⟩] =
      .ok (loadSpec [⟨"fib", "a", "ERROR"⟩, ⟨"fib", "b", "5"⟩]) :=
  c6_load_csv.1 [⟨"fib", "a", "ERROR"⟩, ⟨"fib", "b", "5"⟩] (by decide)

/-! ### Zero valid rows abort the invocation before any report is written -/

theorem load_csv_all_error : ∀ raws : List RawRow,
    (∀ r ∈ raws, r.time_ms = "ERROR") → load_csv raws = .ok []
  | [], _ => rfl
  | r :: rest, h => by
    have hr : r.time_ms = "ERROR" := h r (List.mem_cons_self _ _)
    show (if r.time_ms = "ERROR" then load_csv rest else _) = .ok []
    rw [if_pos hr]
    exact load_csv_all_error rest (fun x hx => h x (List.mem_cons_of_mem _ hx))

/-- C3: when every row of the store carries the `ERROR` marker, the load
yields zero valid rows and the invocation aborts: the pipeline returns the
empty-input error carrying the stderr diagnostic (exit code 1) and produces
no report document. -/
theorem c3_empty_input (raws : List RawRow) (path : String)
    (h : ∀ r ∈ raws, r.time_ms = "ERROR") :
    load_csv raws = .ok [] ∧
      mainPipeline raws path = .error (.emptyInput "No valid results found in CSV.") := by
  have hload := load_csv_all_error raws h
  refine ⟨hload, ?_⟩
  unfold mainPipeline
  rw [hload]
  rfl

/-- Closed witness for `c3_empty_input`. -/
theorem c3_empty_input_witness :
    load_csv [⟨"fib", "c", "ERROR"⟩] = .ok [] ∧
      mainPipeline [⟨"fib", "c", "ERROR"⟩] "results.csv" =
        .error (.emptyInput "No valid results found in CSV.") :=
  c3_empty_input [⟨"fib", "c", "ERROR"⟩] "results.csv" (by decide)

/-! ### Missing cells render as dashes; the renderer is a pure total function -/

/-- C10: for any aggregated model and any language with no stats in a
benchmark group, the summary-table cell and the relative-performance cell of
that (benchmark, language) pair render as the dash cell rather than failing
a lookup; the renderer is a total function of the model (the embedding is
purely functional, so rendering cannot mutate the model). -/
theorem c10_missing_cells (langs : List (String × LanguageStats)) (fastest lang : String)
    (h : langs.lookup lang = none) :
    summaryCell langs fastest lang = " - |" ∧ relCellStr langs lang = " - |" := by
  constructor
  · unfold summaryCell
    rw [h]
  · unfold relCellStr relCell
    rw [h]

/-- Closed witness for `c10_missing_cells`. -/
theorem c10_missing_cells_witness :
    summaryCell [("c", ⟨1, 1, 1, 1, 0, 1⟩)] "c" "lumen" = " - |" ∧
      relCellStr [("c", ⟨1, 1, 1, 1, 0, 1⟩)] "lumen" = " - |" :=
  c10_missing_cells [("c", ⟨1, 1, 1, 1, 0, 1⟩)] "c" "lumen" (by simp [List.lookup])

/-! ### The subject-rank entry: sorted position, totals and ratio -/

theorem medLe_isTotal :
    IsTotal (String × LanguageStats) (fun p q => p.2.median ≤ q.2.median) :=
  ⟨fun _ _ => le_total _ _⟩

theorem medLe_isTrans :
    IsTrans (String × LanguageStats) (fun p q => p.2.median ≤ q.2.median) :=
  ⟨fun _ _ _ h1 h2 => le_trans h1 h2⟩

theorem sortByMedian_perm (langs : List (String × LanguageStats)) :
    List.Perm (sortByMedian langs) langs :=
  List.perm_insertionSort _ langs

theorem sortByMedian_sorted (langs : List (String × LanguageStats)) :
    List.Sorted (fun p q => p.2.median ≤ q.2.median) (sortByMedian langs) := by
  haveI := medLe_isTotal
  haveI := medLe_isTrans
  exact List.sorted_insertionSort _ langs

/-- C7: the subject-rank computation fabricates nothing for an absent
subject (`none`), and a produced entry carries the group's benchmark name,
`total` equal to the number of competing languages, a 1-based `rank` whose
position in the median-sorted permutation of the group is the subject, the
fastest language's name, and a ratio `subject_median / fastest_median` with
`0` substituted when the fastest median is not strictly positive. -/
theorem c7_subject_rank :
    (∀ b langs, "lumen" ∉ langs.map (fun p => p.1) → lumenRankEntry b langs = none) ∧
      (∀ b langs b' rank total rat fname,
        lumenRankEntry b langs = some (b', rank, total, rat, fname) →
        b' = b ∧ total = langs.length ∧ 1 ≤ rank ∧ rank ≤ total ∧
          List.Perm (sortByMedian langs) langs ∧
          List.Sorted (fun p q => p.2.median ≤ q.2.median) (sortByMedian langs) ∧
          ((sortByMedian langs).getD (rank - 1) ("", default)).1 = "lumen" ∧
          (∃ f rest, sortByMedian langs = f :: rest ∧ fname = f.1 ∧
            (∀ p ∈ langs, f.2.median ≤ p.2.median) ∧
            ∃ ls, langs.lookup "lumen" = some ls ∧
              rat = if 0 < f.2.median then ls.median / f.2.median else 0)) := by
  constructor
  · intro b langs h
    unfold lumenRankEntry
    rw [if_neg h]
  · intro b langs b' rank total rat fname h
    unfold lumenRankEntry at h
    by_cases hmem : "lumen" ∈ langs.map (fun p => p.1)
    case neg =>
      rw [if_neg hmem] at h
      cases h
    rw [if_pos hmem] at h
    cases hlk : langs.lookup "lumen" with
    | none =>
      rw [hlk] at h
      cases h
    | some ls =>
      rw [hlk] at h
      cases hsort : sortByMedian langs with
      | nil =>
        rw [hsort] at h
        cases h
      | cons f rest =>
        rw [hsort] at h
        simp only [Option.some.injEq, Prod.mk.injEq] at h
        obtain ⟨hb, hrank, htotal, hrat, hfname⟩ := h
        have hlen : (f :: rest).length = langs.length := by
          rw [← hsort]
          exact (sortByMedian_perm langs).length_eq
        obtain ⟨p, hp, hp1⟩ := List.mem_map.mp hmem
        have hpsort : p ∈ f :: rest := by
          rw [← hsort]
          exact (sortByMedian_perm langs).mem_iff.mpr hp
        have hex : ∃ x ∈ f :: rest, (x.1 == "lumen") = true :=
          ⟨p, hpsort, by simp [hp1]⟩
        have hidx : (f :: rest).findIdx (fun q => q.1 == "lumen") < (f :: rest).length :=
          List.findIdx_lt_length_of_exists hex
        refine ⟨hb.symm, ?_, ?_, ?_, ?_, ?_, ?_, ?_⟩
        · rw [← htotal, hlen]
        · omega
        · rw [← htotal, ← hrank]
          omega
        · rw [← hsort]
          exact sortByMedian_perm langs
        · rw [← hsort]
          exact sortByMedian_sorted langs
        · rw [← hrank]
          have hsub : (f :: rest).findIdx (fun q => q.1 == "lumen") + 1 - 1 =
              (f :: rest).findIdx (fun q => q.1 == "lumen") := by omega
          rw [hsub]
          have hget : (f :: rest).getD ((f :: rest).findIdx (fun q => q.1 == "lumen"))
              ("", default) = (f :: rest)[(f :: rest).findIdx (fun q => q.1 == "lumen")] := by
            simp [List.getD_eq_getElem?_getD, List.getElem?_eq_getElem hidx]
          rw [hget]
          have := @List.findIdx_getElem _ (fun q => q.1 == "lumen") (f :: rest) hidx
          simpa using this
        · refine ⟨f, rest, rfl, hfname.symm, ?_, ls, rfl, hrat.symm⟩
          intro q hq
          have hqsort : q ∈ f :: rest := by
            rw [← hsort]
            exact (sortByMedian_perm langs).mem_iff.mpr hq
          have hsorted : List.Sorted (fun p q => p.2.median ≤ q.2.median) (f :: rest) := by
            rw [← hsort]
            exact sortByMedian_sorted langs
          rcases List.mem_cons.mp hqsort with hqf | hqrest
          · rw [hqf]
          · exact List.rel_of_sorted_cons hsorted q hqrest

/-- Closed witness for `c7_subject_rank`: a one-language group containing
only the subject ranks it first of one. -/
theorem c7_subject_rank_witness :
    ((sortByMedian [("lumen", ⟨1, 1, 1, 1, 0, 1⟩)]).getD (1 - 1) ("", default)).1 =
      "lumen" :=
  ((c7_subject_rank.2 "x" [("lumen", ⟨1, 1, 1, 1, 0, 1⟩)] "x" 1 1 1 "lumen")
    (by norm_num [lumenRankEntry, sortByMedian, List.insertionSort, List.lookup,
      List.findIdx, List.findIdx.go])).2.2.2.2.2.2.1

/-! ### The kernel runner: self-check gate and the timing-line format -/

theorem stripChars_append : ∀ (pre rest : List Char), stripChars pre (pre ++ rest) = some rest
  | [], rest => rfl
  | p :: ps, rest => by
    show (if p = p then stripChars ps (ps ++ rest) else none) = some rest
    rw [if_pos rfl]
    exact stripChars_append ps rest

theorem digitChar_isDigit {d : ℕ} (h : d < 10) : (Nat.digitChar d).isDigit = true := by
  interval_cases d <;> decide

theorem natDigitsFuel_spec : ∀ fuel n : ℕ, n < fuel →
    natDigitsFuel fuel n ≠ [] ∧ ∀ c ∈ natDigitsFuel fuel n, c.isDigit = true
  | 0, n, h => absurd h (by omega)
  | fuel + 1, n, h => by
    by_cases h10 : n < 10
    · have heq : natDigitsFuel (fuel + 1) n = [Nat.digitChar n] := by
        show (if n < 10 then [Nat.digitChar n] else _) = _
        rw [if_pos h10]
      rw [heq]
      refine ⟨by simp, ?_⟩
      intro c hc
      simp at hc
      subst hc
      exact digitChar_isDigit h10
    · have hrec : n / 10 < fuel := by omega
      obtain ⟨h1, h2⟩ := natDigitsFuel_spec fuel (n / 10) hrec
      have heq : natDigitsFuel (fuel + 1) n =
          natDigitsFuel fuel (n / 10) ++ [Nat.digitChar (n % 10)] := by
        show (if n < 10 then _ else natDigitsFuel fuel (n / 10) ++ [Nat.digitChar (n % 10)]) = _
        rw [if_neg h10]
      rw [heq]
      refine ⟨by simp, ?_⟩
      intro c hc
      rcases List.mem_append.mp hc with h' | h'
      · exact h2 c h'
      · simp at h'
        subst h'
        exact digitChar_isDigit (Nat.mod_lt n (by omega))

theorem natDigits_ne_nil (n : ℕ) : natDigits n ≠ [] :=
  (natDigitsFuel_spec (n + 1) n (by omega)).1

theorem natDigits_digits (n : ℕ) : ∀ c ∈ natDigits n, c.isDigit = true :=
  (natDigitsFuel_spec (n + 1) n (by omega)).2

theorem fracDigits_four (a : ℕ) : fracDigits 4 a =
    [Nat.digitChar (a / 1000 % 10), Nat.digitChar (a / 100 % 10),
     Nat.digitChar (a / 10 % 10), Nat.digitChar (a % 10)] := by
  unfold fracDigits
  rw [show List.range 4 = [0, 1, 2, 3] from by decide]
  simp only [List.map_cons, List.map_nil]
  norm_num

theorem rnearest_nonneg {q : ℚ} (h : 0 ≤ q) : 0 ≤ rnearest q := by
  unfold rnearest
  have h0 : (0 : ℤ) ≤ ⌊q⌋ := Int.floor_nonneg.mpr h
  split_ifs <;> omega

theorem fmtFixed_data_of_nonneg {prec : ℕ} (hprec : prec ≠ 0) {q : ℚ} (h : 0 ≤ q) :
    (fmtFixed prec q).data =
      natDigits ((rnearest (q * ((10 ^ prec : ℕ) : ℚ))).natAbs / 10 ^ prec) ++
        '.' :: fracDigits prec ((rnearest (q * ((10 ^ prec : ℕ) : ℚ))).natAbs % 10 ^ prec) := by
  unfold fmtFixed
  have h0 : 0 ≤ rnearest (q * ((10 ^ prec : ℕ) : ℚ)) := rnearest_nonneg (by positivity)
  rw [if_neg (not_lt.mpr h0), if_neg hprec]
  simp [String.data_append]

theorem timingTail_fmt {e : ℚ} (h : 0 ≤ e) :
    timingTail ((fmtFixed 4 e).data ++ ['s']) = true := by
  rw [fmtFixed_data_of_nonneg (by norm_num) h]
  have hassoc : (natDigits ((rnearest (e * ((10 ^ 4 : ℕ) : ℚ))).natAbs / 10 ^ 4) ++
        '.' :: fracDigits 4 ((rnearest (e * ((10 ^ 4 : ℕ) : ℚ))).natAbs % 10 ^ 4)) ++ ['s'] =
      natDigits ((rnearest (e * ((10 ^ 4 : ℕ) : ℚ))).natAbs / 10 ^ 4) ++
        '.' :: (fracDigits 4 ((rnearest (e * ((10 ^ 4 : ℕ) : ℚ))).natAbs % 10 ^ 4) ++ ['s']) := by
    simp
  rw [hassoc]
  unfold timingTail
  rw [List.takeWhile_append_of_pos (fun a ha => natDigits_digits _ a ha),
    List.dropWhile_append_of_pos (fun a ha => natDigits_digits _ a ha)]
  rw [List.takeWhile_cons_of_neg (by decide), List.dropWhile_cons_of_neg (by decide)]
  obtain ⟨c, cs, hcs⟩ := List.exists_cons_of_ne_nil
    (natDigits_ne_nil ((rnearest (e * ((10 ^ 4 : ℕ) : ℚ))).natAbs / 10 ^ 4))
  rw [hcs]
  rw [fracDigits_four]
  simp [digitChar_isDigit (Nat.mod_lt _ (by omega))]

theorem isTimingLine_ok (name : String) {e : ℚ} (h : 0 ≤ e) :
    isTimingLine name (runKernelLine name (.ok e)) = true := by
  unfold isTimingLine runKernelLine
  have hdata : ("BENCH " ++ name ++ ": " ++ fmtFixed 4 e ++ "s").data =
      ("BENCH " ++ name ++ ": ").data ++ ((fmtFixed 4 e).data ++ ['s']) := by
    simp [String.data_append]
  rw [hdata, stripChars_append]
  exact timingTail_fmt h

theorem timingTail_failed (rest : List Char) : timingTail ('F' :: rest) = false := by
  unfold timingTail
  rw [List.takeWhile_cons_of_neg (by decide)]
  simp

theorem isTimingLine_failed (name msg : String) :
    isTimingLine name (runKernelLine name (.error msg)) = false := by
  unfold isTimingLine runKernelLine
  have hdata : ("BENCH " ++ name ++ ": FAILED (" ++ msg ++ ")").data =
      ("BENCH " ++ name ++ ": ").data ++
        ('F' :: ('A' :: 'I' :: 'L' :: 'E' :: 'D' :: ' ' :: '(' :: (msg.data ++ [')']))) := by
    rw [show (": FAILED (" : String) = ": " ++ "FAILED (" from rfl]
    simp [String.data_append]
  rw [hdata, stripChars_append]
  exact timingTail_failed _

theorem fibPair_eq : ∀ n : ℕ, fibPair n = (fib n, fib (n + 1))
  | 0 => rfl
  | n + 1 => by
    have ih := fibPair_eq n
    show (match fibPair n with | (a, b) => (b, a + b)) = _
    rw [ih]
    show (fib (n + 1), fib n + fib (n + 1)) = (fib (n + 1), fib (n + 2))
    rw [show fib (n + 2) = fib (n + 1) + fib n from rfl, Nat.add_comm (fib n) (fib (n + 1))]

theorem fib_35 : fib 35 = 9227465 := by
  have h := fibPair_eq 35
  rw [show fibPair 35 = (9227465, 14930352) from by decide] at h
  exact (congrArg Prod.fst h).symm

/-- C9: `bench_int_fib`'s self-check passes (the naive fib of 35 really is
9227465) and the kernel returns its elapsed time, which the runner reports
as exactly one line matching `BENCH <name>: <4-decimals>s`; a kernel whose
self-check fails terminates abnormally with no timing — the runner's
`FAILED` line never matches the timing format for any message, so a
fast-but-wrong result is never reported as a successful timing. -/
theorem c9_kernel_contract (name msg : String) (e : ℚ) (h : 0 ≤ e) :
    bench_int_fib e = .ok e ∧ fib 35 = 9227465 ∧
      runnerLines [(name, bench_int_fib e)] =
        ["BENCH " ++ name ++ ": " ++ fmtFixed 4 e ++ "s"] ∧
      isTimingLine name (runKernelLine name (.ok e)) = true ∧
      isTimingLine name (runKernelLine name (.error msg)) = false ∧
      (∀ computed expected : ℕ, ∀ el : ℚ, computed ≠ expected →
        kernelSelfCheck computed expected el msg = .error msg ∧
        isTimingLine name (runKernelLine name (kernelSelfCheck computed expected el msg)) =
          false) := by
  have hok : bench_int_fib e = .ok e := by
    show (if fib 35 = 9227465 then Except.ok e
        else Except.error ("fib(35) = " ++ toString (fib 35))) = .ok e
    rw [if_pos fib_35]
  refine ⟨hok, fib_35, ?_, isTimingLine_ok name h, isTimingLine_failed name msg, ?_⟩
  · show [runKernelLine name (bench_int_fib e)] = _
    rw [hok]
    rfl
  · intro computed expected el hne
    have hsc : kernelSelfCheck computed expected el msg = .error msg := by
      unfold kernelSelfCheck
      rw [if_neg hne]
    exact ⟨hsc, by rw [hsc]; exact isTimingLine_failed name msg⟩

/-- Closed witness for `c9_kernel_contract`. -/
theorem c9_kernel_contract_witness :
    isTimingLine "int_fib" (runKernelLine "int_fib" (.ok (0 : ℚ))) = true ∧
      isTimingLine "int_fib" (runKernelLine "int_fib" (.error "fib(35) = 1")) = false :=
  ⟨(c9_kernel_contract "int_fib" "fib(35) = 1" 0 (by norm_num)).2.2.2.1,
   (c9_kernel_contract "int_fib" "fib(35) = 1" 0 (by norm_num)).2.2.2.2.1⟩

end LumenBench
